import Mathlib

/-!
# Formal model of the `barrier` package

A shallow embedding of the Go package `pwaller/barrier` (file `barrier.go`,
the variant with `Forward`/`FallHook`).  Barriers live in a heap addressed by
natural numbers (modelling `*Barrier` pointers).  Channels are modelled by
identifiers plus a closed-flag; `sync.Once` is modelled by an explicit status
so that the Go deadlock on re-entrant `Once.Do` is observable.  Side effects
of interest (hook invocation, channel close) are recorded in an append-only
event trace.  Execution is sequential; recursion in `Fall` is bounded by an
explicit fuel, with fuel exhaustion distinguished from deadlock.
-/

namespace Barrier

/-- Status of a `sync.Once`: `running` means the guarded body has been entered
but has not returned (a re-entrant `Do` on the same goroutine deadlocks). -/
inductive OnceStatus
  | notStarted
  | running
  | done
deriving DecidableEq, Repr

/-- Observable side effects recorded in the trace: the `FallHook` callback
being invoked for a barrier, and a barrier's channel being closed. -/
inductive Event
  | hookEv (b : Nat)
  | closeEv (b : Nat)
deriving DecidableEq, Repr

/-- Execution outcomes other than normal return: running out of fuel, or a
re-entrant `fallOnce.Do` (the Go deadlock).  The deadlock carries the trace
of events that had occurred when execution blocked. -/
inductive Err
  | outOfFuel
  | deadlock (tr : List Event)
deriving DecidableEq, Repr

/-- State of one `Barrier` struct: `initOnce`/`fallOnce` are the two
`sync.Once` fields, `channel` the lazily created channel (by id),
`forwards`/`backwards` the two pointer sets (as lists of heap ids), and
`fallHook` records whether the `FallHook` callback field is set. -/
structure BarrierS where
  initOnce : Bool
  fallOnce : OnceStatus
  channel : Option Nat
  forwards : List Nat
  backwards : List Nat
  fallHook : Bool
deriving DecidableEq, Repr

/-- The zero value of a `Barrier` (hook configured or not). -/
def freshB (hook : Bool) : BarrierS :=
  { initOnce := false, fallOnce := .notStarted, channel := none,
    forwards := [], backwards := [], fallHook := hook }

/-- Global state: the heap of barriers, the closed-flags of channels, the
next fresh channel id, and the event trace. -/
structure World where
  heap : Nat → BarrierS
  chanClosed : Nat → Bool
  nextChan : Nat
  trace : List Event

/-- A world of zero-value barriers, all with a hook configured. -/
def w0 : World :=
  { heap := fun _ => freshB true, chanClosed := fun _ => false,
    nextChan := 0, trace := [] }

/-- Replace the state of barrier `b` in the heap. -/
def updHeap (b : Nat) (s : BarrierS) (w : World) : World :=
  { w with heap := fun x => if x = b then s else w.heap x }

/-- `b.init()`: under `initOnce`, create the channel and the two empty sets. -/
def Init (b : Nat) (w : World) : World :=
  let s := w.heap b
  if s.initOnce then w
  else
    { updHeap b { s with initOnce := true, channel := some w.nextChan,
                         forwards := [], backwards := [] } w
      with nextChan := w.nextChan + 1 }

/-- The `select`/`<-b.channel` non-blocking closed test. -/
def isClosed (w : World) (b : Nat) : Bool :=
  match (w.heap b).channel with
  | some c => w.chanClosed c
  | none => false

/-- `close(b.channel)`: mark the channel closed and record the event. -/
def closeChan (b : Nat) (w : World) : World :=
  let w' :=
    match (w.heap b).channel with
    | some c => { w with chanClosed := fun x => if x = c then true else w.chanClosed x }
    | none => w
  { w' with trace := w'.trace ++ [Event.closeEv b] }

/-- Set-style insertion into a Go `map[*Barrier]struct\x7b\x7d` key set. -/
def insertId (x : Nat) (l : List Nat) : List Nat :=
  if x ∈ l then l else l ++ [x]

/-- `delete(backward.forwards, b)` performed for one predecessor. -/
def retract1 (p b : Nat) (w : World) : World :=
  updHeap p { w.heap p with forwards := (w.heap p).forwards.filter (fun x => x ≠ b) } w

/-- The backward-retraction loop of `Fall`: for each `p` in the snapshot of
`b.backwards`, remove `b` from `p.forwards` under `p`'s lock. -/
def retractAll : List Nat → Nat → World → World
  | [], _, w => w
  | p :: ps, b, w => retractAll ps b (retract1 p b w)

/-- Set the `fallOnce` status of barrier `b`. -/
def updFall (b : Nat) (st : OnceStatus) (w : World) : World :=
  updHeap b { w.heap b with fallOnce := st } w

/-- Run `fn` on each element of a list in order, propagating errors
(the `for forward := range b.forwards` loop, with `fn` the recursive call). -/
def fallSeq (fn : Nat → World → Except Err World) : List Nat → World → Except Err World
  | [], w => .ok w
  | f :: fs, w =>
    match fn f w with
    | .error e => .error e
    | .ok w' => fallSeq fn fs w'

/-- `if b.FallHook != nil \x7b b.FallHook() \x7d`: record the hook invocation. -/
def hookW (b : Nat) (w : World) : World :=
  if (w.heap b).fallHook then { w with trace := w.trace ++ [Event.hookEv b] } else w

/-- The locked prefix of `fallOnce.Do`'s body: enter the gate (status
`running`), invoke the hook if set, close the channel. -/
def preFire (b : Nat) (w : World) : World :=
  closeChan b (hookW b (updFall b .running w))

/-- The suffix of `fallOnce.Do`'s body after propagation: drop `forwards`
(`b.forwards = nil`), retract `b` from each `backward.forwards`, and leave
the gate (status `done`). -/
def postFire (b : Nat) (w1 : World) : World :=
  let w2 := updHeap b { w1.heap b with forwards := [] } w1
  updFall b .done (retractAll (w2.heap b).backwards b w2)

/-- `b.Fall()`.  Faithful to the Go body: `b.init()`; then under
`fallOnce.Do` (entering, with re-entry = deadlock): invoke the hook if set,
close the channel, propagate to each barrier in `forwards`, drop `forwards`,
and retract `b` from each `backward.forwards`.  `fuel` bounds recursion
depth; recursive calls run with one unit less. -/
def Fall : Nat → Nat → World → Except Err World
  | 0, _, _ => .error .outOfFuel
  | fuel + 1, b, w =>
    let w := Init b w
    match (w.heap b).fallOnce with
    | .done => .ok w
    | .running => .error (.deadlock w.trace)
    | .notStarted =>
      let w := preFire b w
      match fallSeq (fun f w' => Fall fuel f w') (w.heap b).forwards w with
      | .error e => .error e
      | .ok w1 => .ok (postFire b w1)

/-- `b.Forward(f)`.  Faithful to the Go body, including the subtlety that the
`return` in the closure only exits the closure: after the already-fallen fast
path (which fires `f` immediately), execution still reaches `f.init()` and
`f.backwards[b] = struct\x7b\x7d`. -/
def Forward (fuel b f : Nat) (w : World) : Except Err World :=
  let w := Init b w
  let step : Except Err World :=
    if isClosed w b then Fall fuel f w
    else .ok (updHeap b { w.heap b with forwards := insertId f (w.heap b).forwards } w)
  match step with
  | .error e => .error e
  | .ok w' =>
    let w' := Init f w'
    .ok (updHeap f { w'.heap f with backwards := insertId b (w'.heap f).backwards } w')

/-- `b.Barrier()`: initialize and return the channel (by id). -/
def BarrierCh (b : Nat) (w : World) : Option Nat × World :=
  let w := Init b w
  ((w.heap b).channel, w)

/-- A call of the public API, for stating properties over arbitrary call
sequences. -/
inductive Op
  | opInit (b : Nat)
  | opFall (b : Nat)
  | opForward (b f : Nat)
  | opBarrier (b : Nat)

/-- Execute one API call. -/
def runOp (fuel : Nat) (w : World) : Op → Except Err World
  | .opInit b => .ok (Init b w)
  | .opFall b => Fall fuel b w
  | .opForward b f => Forward fuel b f w
  | .opBarrier b => .ok (BarrierCh b w).2

/-- Execute a sequence of API calls. -/
def runOps (fuel : Nat) : List Op → World → Except Err World
  | [], w => .ok w
  | op :: ops, w =>
    match runOp fuel w op with
    | .error e => .error e
    | .ok w' => runOps fuel ops w'

/-- Call `b.Fall()` `n` times in sequence. -/
def FallN (fuel : Nat) : Nat → Nat → World → Except Err World
  | 0, _, w => .ok w
  | n + 1, b, w =>
    match Fall fuel b w with
    | .error e => .error e
    | .ok w' => FallN fuel n b w'

/-- Evaluate a boolean observation on a successful outcome
(`false` on error). -/
def okCheck (e : Except Err World) (p : World → Bool) : Bool :=
  match e with
  | .ok w => p w
  | .error _ => false

/-- Extract the world of a successful outcome, with a default. -/
def okWorld (e : Except Err World) (d : World) : World :=
  match e with
  | .ok w => w
  | .error _ => d

/-- A barrier is Fallen when its fire-once gate has completed and its channel
is closed. -/
def isFallen (w : World) (b : Nat) : Bool :=
  decide ((w.heap b).fallOnce = OnceStatus.done) && isClosed w b

/-- The world after `a.Forward(b); b.Forward(a)` on fresh barriers `0`, `1`. -/
def afterCycleSetup : Except Err World :=
  runOps 5 [.opForward 0 1, .opForward 1 0] w0

/-- `a.Fall()` on the two-barrier cycle, with any fuel of at least 3. -/
def fallAfterCycle (n : Nat) : Except Err World :=
  match afterCycleSetup with
  | .ok w => Fall (n + 3) 0 w
  | .error e => .error e

/-- C1 (counterexample): with `a.Forward(b)` and `b.Forward(a)` registered on
fresh barriers `a = 0`, `b = 1`, the call `a.Fall()` does not terminate
normally: propagation re-enters `a`'s `fallOnce.Do` on the same goroutine,
which in Go blocks forever.  The model reports the deadlock, refuting the
claim that the call terminates and leaves both barriers Fallen. -/
theorem C1_counterexample :
    runOps 10 [.opForward 0 1, .opForward 1 0, .opFall 0] w0 =
      .error (.deadlock [Event.hookEv 0, Event.closeEv 0, Event.hookEv 1, Event.closeEv 1]) :=
  rfl

/-- C1 (amended): on the two-barrier cycle, `a.Fall()` deadlocks at every
recursion budget of at least 3 — the traversal `a → b → a` re-enters `a`'s
fire-once gate, which never returns.  Before blocking, each barrier's hook
has run and each channel has been closed exactly once (the trace at the
moment of deadlock is exactly `[hook a, close a, hook b, close b]`), but the
call never completes, so `Fall`'s cleanup (dropping `forwards`, retracting
`backwards`) never runs for either barrier. -/
theorem C1_amended_thm : ∀ n : Nat, fallAfterCycle n =
    .error (.deadlock [Event.hookEv 0, Event.closeEv 0, Event.hookEv 1, Event.closeEv 1]) :=
  fun _ => rfl

theorem C1_amended_witness :
    fallAfterCycle 0 =
      .error (.deadlock [Event.hookEv 0, Event.closeEv 0, Event.hookEv 1, Event.closeEv 1]) :=
  C1_amended_thm 0

/-- C2 (code evaluation at the failing input): after `b.Fall()` on fresh
`b = 0`, the call `b.Forward(f)` for fresh `f = 1` fires `f` immediately and
adds nothing to `b.forwards` — but it does add `b` to `f.backwards`, because
the `return` in `Forward`'s locked closure only exits the closure, after
which `f.backwards[b] = struct\x7b\x7d` still executes.  The claim requires that no
entry be added to either set. -/
theorem C2_bug_eval :
    okCheck (runOps 10 [.opFall 0, .opForward 0 1] w0)
      (fun w => isFallen w 1 && decide ((w.heap 0).forwards = [])
        && decide ((w.heap 1).backwards = [0])) = true :=
  rfl

/-- C7: chained forwarding is transitive across three hops — after
`a.Forward(b); b.Forward(c)` on fresh barriers `a = 0`, `b = 1`, `c = 2`,
calling `a.Fall()` leaves all three barriers Fallen. -/
theorem C7_thm :
    okCheck (runOps 10 [.opForward 0 1, .opForward 1 2, .opFall 0] w0)
      (fun w => isFallen w 0 && isFallen w 1 && isFallen w 2) = true :=
  rfl

/-- C4 (counterexample): after `a.Forward(b); b.Fall()` on fresh `a = 0`,
`b = 1`, barrier `b` is Fallen yet `b.backwards` still holds `a`: `Fall`
sets `b.forwards = nil` but never clears `b.backwards`, refuting the claim
that both sets are empty after `b.Fall()` completes. -/
theorem C4_counterexample :
    okCheck (runOps 10 [.opForward 0 1, .opFall 1] w0)
      (fun w => isFallen w 1 && decide ((w.heap 1).backwards = [0])
        && decide ((w.heap 1).forwards = [])) = true :=
  rfl

/-- C5 (counterexample): after `a.Forward(f); a.Fall()` on fresh `a = 0`,
`f = 1`, both barriers are Fallen and `a.forwards` is empty, yet `f` still
lists `a` in `f.backwards` — no code path ever removes entries from a
`backwards` set, refuting the claim that every barrier `a` forwarded into no
longer lists `a` in its backward set. -/
theorem C5_counterexample :
    okCheck (runOps 10 [.opForward 0 1, .opFall 0] w0)
      (fun w => isFallen w 0 && isFallen w 1 && decide ((w.heap 0).forwards = [])
        && decide ((w.heap 1).backwards = [0])) = true :=
  rfl

/-! ## Projection lemmas for the primitive state updates -/

@[simp] theorem updHeap_heap (b : Nat) (s : BarrierS) (w : World) (x : Nat) :
    (updHeap b s w).heap x = if x = b then s else w.heap x := rfl

@[simp] theorem updHeap_trace (b : Nat) (s : BarrierS) (w : World) :
    (updHeap b s w).trace = w.trace := rfl

@[simp] theorem updHeap_chanClosed (b : Nat) (s : BarrierS) (w : World) :
    (updHeap b s w).chanClosed = w.chanClosed := rfl

@[simp] theorem updHeap_nextChan (b : Nat) (s : BarrierS) (w : World) :
    (updHeap b s w).nextChan = w.nextChan := rfl

@[simp] theorem updFall_heap (b : Nat) (st : OnceStatus) (w : World) (x : Nat) :
    (updFall b st w).heap x = if x = b then { w.heap b with fallOnce := st } else w.heap x := rfl

@[simp] theorem updFall_trace (b : Nat) (st : OnceStatus) (w : World) :
    (updFall b st w).trace = w.trace := rfl

@[simp] theorem updFall_chanClosed (b : Nat) (st : OnceStatus) (w : World) :
    (updFall b st w).chanClosed = w.chanClosed := rfl

@[simp] theorem init_trace (b : Nat) (w : World) : (Init b w).trace = w.trace := by
  rw [Init]; split <;> rfl

@[simp] theorem init_chanClosed (b : Nat) (w : World) :
    (Init b w).chanClosed = w.chanClosed := by
  rw [Init]; split <;> rfl

@[simp] theorem init_fallOnce (b : Nat) (w : World) (x : Nat) :
    ((Init b w).heap x).fallOnce = (w.heap x).fallOnce := by
  rw [Init]; split
  · rfl
  · simp only [updHeap_heap]
    split
    · next h => subst h; rfl
    · rfl

@[simp] theorem init_fallHook (b : Nat) (w : World) (x : Nat) :
    ((Init b w).heap x).fallHook = (w.heap x).fallHook := by
  rw [Init]; split
  · rfl
  · simp only [updHeap_heap]
    split
    · next h => subst h; rfl
    · rfl

theorem init_initOnce_self (b : Nat) (w : World) : ((Init b w).heap b).initOnce = true := by
  rw [Init]; split
  · next h => exact h
  · simp

theorem init_of_initOnce (b : Nat) (w : World) (h : (w.heap b).initOnce = true) :
    Init b w = w := by
  rw [Init]; simp [h]

theorem init_initOnce_mono (b : Nat) (w : World) (x : Nat)
    (h : (w.heap x).initOnce = true) : ((Init b w).heap x).initOnce = true := by
  rw [Init]; split
  · exact h
  · simp only [updHeap_heap]
    split
    · simp
    · exact h

theorem init_channel_stable (b : Nat) (w : World) (x : Nat)
    (h : (w.heap x).initOnce = true) : ((Init b w).heap x).channel = (w.heap x).channel := by
  rw [Init]; split
  · rfl
  · next hb =>
    simp only [updHeap_heap]
    split
    · next hxb => subst hxb; exact absurd h (by simpa using hb)
    · rfl

@[simp] theorem hookW_heap (b : Nat) (w : World) : (hookW b w).heap = w.heap := by
  unfold hookW; split <;> rfl

@[simp] theorem hookW_chanClosed (b : Nat) (w : World) :
    (hookW b w).chanClosed = w.chanClosed := by
  unfold hookW; split <;> rfl

theorem hookW_trace (b : Nat) (w : World) :
    (hookW b w).trace =
      w.trace ++ (if (w.heap b).fallHook then [Event.hookEv b] else []) := by
  unfold hookW; split <;> simp_all

@[simp] theorem closeChan_heap (b : Nat) (w : World) : (closeChan b w).heap = w.heap := by
  unfold closeChan; split <;> rfl

@[simp] theorem closeChan_trace (b : Nat) (w : World) :
    (closeChan b w).trace = w.trace ++ [Event.closeEv b] := by
  unfold closeChan; split <;> rfl

theorem closeChan_closedMono (b : Nat) (w : World) (c : Nat)
    (h : w.chanClosed c = true) : (closeChan b w).chanClosed c = true := by
  unfold closeChan; split
  · simp only; split <;> simp [h]
  · exact h

@[simp] theorem preFire_heap (b : Nat) (w : World) (x : Nat) :
    (preFire b w).heap x =
      if x = b then { w.heap b with fallOnce := OnceStatus.running } else w.heap x := by
  unfold preFire
  rw [show (closeChan b (hookW b (updFall b .running w))).heap
      = (hookW b (updFall b .running w)).heap from closeChan_heap ..]
  rw [hookW_heap]
  exact updFall_heap ..

theorem preFire_trace (b : Nat) (w : World) :
    (preFire b w).trace =
      w.trace ++ ((if (w.heap b).fallHook then [Event.hookEv b] else []) ++ [Event.closeEv b]) := by
  unfold preFire
  rw [closeChan_trace, hookW_trace]
  simp

theorem preFire_closedMono (b : Nat) (w : World) (c : Nat)
    (h : w.chanClosed c = true) : (preFire b w).chanClosed c = true := by
  unfold preFire
  exact closeChan_closedMono _ _ _ (by simpa using h)

theorem retract1_heap (p b : Nat) (w : World) (x : Nat) :
    (retract1 p b w).heap x =
      if x = p then { w.heap p with forwards := (w.heap p).forwards.filter (fun y => y ≠ b) }
      else w.heap x := rfl

theorem retractAll_heap_eq : ∀ (L : List Nat) (c : Nat) (w : World) (x : Nat),
    (retractAll L c w).heap x = { w.heap x with forwards := ((retractAll L c w).heap x).forwards }
  | [], _, _, _ => rfl
  | p :: ps, c, w, x => by
    show (retractAll ps c (retract1 p c w)).heap x = _
    rw [retractAll_heap_eq ps c (retract1 p c w) x]
    rw [retract1_heap]
    split
    · next hxp => subst hxp; rfl
    · rfl

theorem retractAll_fallOnce (L : List Nat) (c : Nat) (w : World) (x : Nat) :
    ((retractAll L c w).heap x).fallOnce = (w.heap x).fallOnce := by
  rw [retractAll_heap_eq]

theorem retractAll_initOnce (L : List Nat) (c : Nat) (w : World) (x : Nat) :
    ((retractAll L c w).heap x).initOnce = (w.heap x).initOnce := by
  rw [retractAll_heap_eq]

theorem retractAll_channel (L : List Nat) (c : Nat) (w : World) (x : Nat) :
    ((retractAll L c w).heap x).channel = (w.heap x).channel := by
  rw [retractAll_heap_eq]

theorem retractAll_backwards (L : List Nat) (c : Nat) (w : World) (x : Nat) :
    ((retractAll L c w).heap x).backwards = (w.heap x).backwards := by
  rw [retractAll_heap_eq]

theorem retractAll_fallHook (L : List Nat) (c : Nat) (w : World) (x : Nat) :
    ((retractAll L c w).heap x).fallHook = (w.heap x).fallHook := by
  rw [retractAll_heap_eq]

theorem retractAll_trace : ∀ (L : List Nat) (c : Nat) (w : World),
    (retractAll L c w).trace = w.trace
  | [], _, _ => rfl
  | p :: ps, c, w => by
    show (retractAll ps c (retract1 p c w)).trace = _
    rw [retractAll_trace ps c (retract1 p c w)]
    rfl

theorem retractAll_chanClosed : ∀ (L : List Nat) (c : Nat) (w : World),
    (retractAll L c w).chanClosed = w.chanClosed
  | [], _, _ => rfl
  | p :: ps, c, w => by
    show (retractAll ps c (retract1 p c w)).chanClosed = _
    rw [retractAll_chanClosed ps c (retract1 p c w)]
    rfl

theorem retract1_heap_self (p b : Nat) (w : World) :
    (retract1 p b w).heap p =
      { w.heap p with forwards := (w.heap p).forwards.filter (fun y => y ≠ b) } := by
  rw [retract1_heap]; simp

theorem retractAll_forwards_sub : ∀ (L : List Nat) (c : Nat) (w : World) (x y : Nat),
    y ∈ ((retractAll L c w).heap x).forwards → y ∈ (w.heap x).forwards
  | [], _, _, _, _, h => h
  | p :: ps, c, w, x, y, h => by
    have h' := retractAll_forwards_sub ps c (retract1 p c w) x y h
    rw [retract1_heap] at h'
    revert h'
    split
    · next hxp =>
      subst hxp
      intro h'
      simp only [List.mem_filter] at h'
      exact h'.1
    · exact id

theorem retractAll_mem_retracted : ∀ (L : List Nat) (c : Nat) (w : World),
    ∀ p ∈ L, c ∉ ((retractAll L c w).heap p).forwards
  | [], _, _, p, hp => absurd hp (List.not_mem_nil p)
  | q :: ps, c, w, p, hp => by
    rcases List.mem_cons.1 hp with hpq | hps
    · subst hpq
      intro hmem
      have h' := retractAll_forwards_sub ps c (retract1 p c w) p c hmem
      rw [retract1_heap_self] at h'
      simp only [List.mem_filter] at h'
      exact absurd h'.2 (by simp)
    · exact retractAll_mem_retracted ps c (retract1 q c w) p hps

/-! ## The step relation: facts preserved by every operation -/

/-- Numeric rank of a `sync.Once` status (it only ever increases). -/
def stN : OnceStatus → Nat
  | .notStarted => 0
  | .running => 1
  | .done => 2

theorem stN_ne_notStarted {s : OnceStatus} : s ≠ OnceStatus.notStarted ↔ 1 ≤ stN s := by
  cases s <;> simp [stN]

/-- Invariants relating a state to any later state of the same execution:
the trace only grows, and grows no hook/close events for barriers whose
fire-once gate had already been entered; closed channels stay closed; the
`fallOnce` status only advances; initialized barriers stay initialized with
the same channel; the hook configuration is untouched. -/
structure Step (w w' : World) : Prop where
  traceExt : ∃ t, w'.trace = w.trace ++ t ∧
    ∀ b, (w.heap b).fallOnce ≠ OnceStatus.notStarted →
      Event.hookEv b ∉ t ∧ Event.closeEv b ∉ t
  closedMono : ∀ c, w.chanClosed c = true → w'.chanClosed c = true
  fallMono : ∀ b, stN (w.heap b).fallOnce ≤ stN (w'.heap b).fallOnce
  chanStable : ∀ b, (w.heap b).initOnce = true →
    (w'.heap b).initOnce = true ∧ (w'.heap b).channel = (w.heap b).channel
  hookStable : ∀ b, (w'.heap b).fallHook = (w.heap b).fallHook

theorem Step.refl (w : World) : Step w w where
  traceExt := ⟨[], by simp, by simp⟩
  closedMono := fun _ h => h
  fallMono := fun _ => le_refl _
  chanStable := fun _ h => ⟨h, rfl⟩
  hookStable := fun _ => rfl

theorem Step.trans {w w1 w2 : World} (h1 : Step w w1) (h2 : Step w1 w2) : Step w w2 where
  traceExt := by
    obtain ⟨t1, e1, p1⟩ := h1.traceExt
    obtain ⟨t2, e2, p2⟩ := h2.traceExt
    refine ⟨t1 ++ t2, by rw [e2, e1, List.append_assoc], fun b hb => ?_⟩
    have hb1 : (w1.heap b).fallOnce ≠ OnceStatus.notStarted := by
      rw [stN_ne_notStarted]
      exact le_trans (stN_ne_notStarted.1 hb) (h1.fallMono b)
    have q1 := p1 b hb
    have q2 := p2 b hb1
    constructor
    · intro hm
      rcases List.mem_append.1 hm with hm | hm
      · exact q1.1 hm
      · exact q2.1 hm
    · intro hm
      rcases List.mem_append.1 hm with hm | hm
      · exact q1.2 hm
      · exact q2.2 hm
  closedMono := fun c h => h2.closedMono c (h1.closedMono c h)
  fallMono := fun b => le_trans (h1.fallMono b) (h2.fallMono b)
  chanStable := fun b h => by
    obtain ⟨hi, hc⟩ := h1.chanStable b h
    obtain ⟨hi', hc'⟩ := h2.chanStable b hi
    exact ⟨hi', hc'.trans hc⟩
  hookStable := fun b => (h2.hookStable b).trans (h1.hookStable b)

theorem step_init (b : Nat) (w : World) : Step w (Init b w) where
  traceExt := ⟨[], by simp, by simp⟩
  closedMono := fun c h => by simpa using h
  fallMono := fun x => by rw [init_fallOnce]
  chanStable := fun x h => ⟨init_initOnce_mono b w x h, init_channel_stable b w x h⟩
  hookStable := fun x => init_fallHook b w x

theorem step_updHeap_forwards (b : Nat) (F : List Nat) (w : World) :
    Step w (updHeap b { w.heap b with forwards := F } w) where
  traceExt := ⟨[], by simp, by simp⟩
  closedMono := fun _ h => h
  fallMono := fun x => by
    simp only [updHeap_heap]
    split
    · next h => subst h; exact le_refl _
    · exact le_refl _
  chanStable := fun x h => by
    simp only [updHeap_heap]
    split
    · next hxb => subst hxb; exact ⟨h, rfl⟩
    · exact ⟨h, rfl⟩
  hookStable := fun x => by
    simp only [updHeap_heap]
    split
    · next h => subst h; rfl
    · rfl

theorem step_updHeap_backwards (b : Nat) (B : List Nat) (w : World) :
    Step w (updHeap b { w.heap b with backwards := B } w) where
  traceExt := ⟨[], by simp, by simp⟩
  closedMono := fun _ h => h
  fallMono := fun x => by
    simp only [updHeap_heap]
    split
    · next h => subst h; exact le_refl _
    · exact le_refl _
  chanStable := fun x h => by
    simp only [updHeap_heap]
    split
    · next hxb => subst hxb; exact ⟨h, rfl⟩
    · exact ⟨h, rfl⟩
  hookStable := fun x => by
    simp only [updHeap_heap]
    split
    · next h => subst h; rfl
    · rfl

theorem step_retractAll (L : List Nat) (c : Nat) (w : World) : Step w (retractAll L c w) where
  traceExt := ⟨[], by rw [retractAll_trace]; simp, by simp⟩
  closedMono := fun x h => by rw [retractAll_chanClosed]; exact h
  fallMono := fun x => by rw [retractAll_fallOnce]
  chanStable := fun x h => ⟨by rw [retractAll_initOnce]; exact h, by rw [retractAll_channel]⟩
  hookStable := fun x => retractAll_fallHook L c w x


/-! ## Step lemmas for the compound operations -/

theorem fallSeq_step (fn : Nat → World → Except Err World)
    (hfn : ∀ f w w', fn f w = .ok w' → Step w w') :
    ∀ (l : List Nat) (w w' : World), fallSeq fn l w = .ok w' → Step w w'
  | [], w, w', h => by
    simp only [fallSeq] at h
    injection h with h
    subst h
    exact Step.refl w
  | f :: fs, w, w', h => by
    simp only [fallSeq] at h
    cases hfw : fn f w with
    | error e => rw [hfw] at h; cases h
    | ok w1 =>
      rw [hfw] at h
      exact (hfn f w w1 hfw).trans (fallSeq_step fn hfn fs w1 w' h)

theorem step_preFire_of_notStarted (b : Nat) (w : World)
    (hns : (w.heap b).fallOnce = .notStarted) : Step w (preFire b w) where
  traceExt := by
    refine ⟨(if (w.heap b).fallHook then [Event.hookEv b] else []) ++ [Event.closeEv b],
      preFire_trace b w, fun x hx => ?_⟩
    have hxb : x ≠ b := fun he => hx (he ▸ hns)
    constructor
    · intro hm
      rcases List.mem_append.1 hm with hm | hm
      · revert hm; split <;> simp [hxb]
      · simp at hm
    · intro hm
      rcases List.mem_append.1 hm with hm | hm
      · revert hm; split <;> simp
      · simp at hm
        exact hxb hm
  closedMono := fun c h => preFire_closedMono b w c h
  fallMono := fun x => by
    rw [preFire_heap]
    split
    · next hxb => subst hxb; rw [hns]; simp [stN]
    · exact le_refl _
  chanStable := fun x h => by
    rw [preFire_heap]
    split
    · next hxb => subst hxb; exact ⟨h, rfl⟩
    · exact ⟨h, rfl⟩
  hookStable := fun x => by
    rw [preFire_heap]
    split
    · next hxb => subst hxb; rfl
    · rfl

theorem step_updFall_done (b : Nat) (w : World) : Step w (updFall b OnceStatus.done w) where
  traceExt := ⟨[], by simp, by simp⟩
  closedMono := fun _ h => h
  fallMono := fun x => by
    simp only [updFall_heap]
    split
    · next hxb =>
      subst hxb
      cases (w.heap x).fallOnce <;> simp [stN]
    · exact le_refl _
  chanStable := fun x h => by
    simp only [updFall_heap]
    split
    · next hxb => subst hxb; exact ⟨h, rfl⟩
    · exact ⟨h, rfl⟩
  hookStable := fun x => by
    simp only [updFall_heap]
    split
    · next hxb => subst hxb; rfl
    · rfl

theorem step_postFire (b : Nat) (w1 : World) : Step w1 (postFire b w1) := by
  have h1 : Step w1 (updHeap b { w1.heap b with forwards := [] } w1) :=
    step_updHeap_forwards b [] w1
  have h2 := step_retractAll
    ((updHeap b { w1.heap b with forwards := [] } w1).heap b).backwards b
    (updHeap b { w1.heap b with forwards := [] } w1)
  have h3 := step_updFall_done b
    (retractAll ((updHeap b { w1.heap b with forwards := [] } w1).heap b).backwards b
      (updHeap b { w1.heap b with forwards := [] } w1))
  exact (h1.trans h2).trans h3

theorem Fall_step : ∀ (fuel b : Nat) (w w' : World), Fall fuel b w = .ok w' → Step w w' := by
  intro fuel
  induction fuel with
  | zero => intro b w w' h; cases h
  | succ fuel ih =>
    intro b w w' h
    simp only [Fall] at h
    cases hst : ((Init b w).heap b).fallOnce with
    | done =>
      rw [hst] at h
      injection h with h
      subst h
      exact step_init b w
    | running => rw [hst] at h; cases h
    | notStarted =>
      rw [hst] at h
      rw [init_fallOnce] at hst
      cases hfs : fallSeq (fun f w' => Fall fuel f w')
          ((preFire b (Init b w)).heap b).forwards (preFire b (Init b w)) with
      | error e => rw [hfs] at h; cases h
      | ok w1 =>
        rw [hfs] at h
        injection h with h
        subst h
        have s1 : Step w (Init b w) := step_init b w
        have s2 : Step (Init b w) (preFire b (Init b w)) :=
          step_preFire_of_notStarted b (Init b w) (by rw [init_fallOnce]; exact hst)
        have s3 : Step (preFire b (Init b w)) w1 :=
          fallSeq_step _ (fun f wx wy hxy => ih f wx wy hxy) _ _ _ hfs
        exact ((s1.trans s2).trans s3).trans (step_postFire b w1)

theorem step_insertForwards (b f : Nat) (w : World) :
    Step w (updHeap b { w.heap b with forwards := insertId f (w.heap b).forwards } w) :=
  step_updHeap_forwards b _ w

theorem step_insertBackwards (f b : Nat) (w : World) :
    Step w (updHeap f { w.heap f with backwards := insertId b (w.heap f).backwards } w) :=
  step_updHeap_backwards f _ w

theorem Forward_step (fuel b f : Nat) (w w' : World) (h : Forward fuel b f w = .ok w') :
    Step w w' := by
  simp only [Forward] at h
  have hInit : Step w (Init b w) := step_init b w
  cases hcl : isClosed (Init b w) b with
  | true =>
    rw [hcl] at h
    simp only [if_pos rfl, if_true] at h
    cases hfl : Fall fuel f (Init b w) with
    | error e => rw [hfl] at h; cases h
    | ok w1 =>
      rw [hfl] at h
      injection h with h
      subst h
      exact ((hInit.trans (Fall_step fuel f _ w1 hfl)).trans (step_init f w1)).trans
        (step_insertBackwards f b (Init f w1))
  | false =>
    rw [hcl] at h
    simp only [Bool.false_eq_true, if_false] at h
    injection h with h
    subst h
    exact ((hInit.trans (step_insertForwards b f (Init b w))).trans
      (step_init f (updHeap b { (Init b w).heap b with
        forwards := insertId f ((Init b w).heap b).forwards } (Init b w)))).trans
      (step_insertBackwards f b (Init f (updHeap b { (Init b w).heap b with
        forwards := insertId f ((Init b w).heap b).forwards } (Init b w))))

theorem runOp_step (fuel : Nat) (w w' : World) (op : Op) (h : runOp fuel w op = .ok w') :
    Step w w' := by
  cases op with
  | opInit b =>
    simp only [runOp] at h
    injection h with h
    subst h
    exact step_init b w
  | opFall b => exact Fall_step fuel b w w' h
  | opForward b f => exact Forward_step fuel b f w w' h
  | opBarrier b =>
    simp only [runOp, BarrierCh] at h
    injection h with h
    subst h
    exact step_init b w

theorem runOps_step (fuel : Nat) :
    ∀ (ops : List Op) (w w' : World), runOps fuel ops w = .ok w' → Step w w'
  | [], w, w', h => by
    simp only [runOps] at h
    injection h with h
    subst h
    exact Step.refl w
  | op :: ops, w, w', h => by
    simp only [runOps] at h
    cases hop : runOp fuel w op with
    | error e => rw [hop] at h; cases h
    | ok w1 =>
      rw [hop] at h
      exact (runOp_step fuel w w1 op hop).trans (runOps_step fuel ops w1 w' h)


/-! ## Unfolding lemmas for `Fall` -/

theorem Fall_ns_shape (fuel b : Nat) (w w' : World)
    (hns : (w.heap b).fallOnce = OnceStatus.notStarted)
    (h : Fall (fuel + 1) b w = .ok w') :
    ∃ w1, fallSeq (fun f wx => Fall fuel f wx)
        ((preFire b (Init b w)).heap b).forwards (preFire b (Init b w)) = .ok w1 ∧
      w' = postFire b w1 := by
  simp only [Fall] at h
  cases hst : ((Init b w).heap b).fallOnce with
  | done => rw [init_fallOnce, hns] at hst; cases hst
  | running => rw [init_fallOnce, hns] at hst; cases hst
  | notStarted =>
    rw [hst] at h
    cases hfs : fallSeq (fun f wx => Fall fuel f wx)
        ((preFire b (Init b w)).heap b).forwards (preFire b (Init b w)) with
    | error e => rw [hfs] at h; cases h
    | ok w1 =>
      rw [hfs] at h
      injection h with h
      exact ⟨w1, rfl, h.symm⟩

@[simp] theorem updFall_forwards (b : Nat) (st : OnceStatus) (w : World) (x : Nat) :
    ((updFall b st w).heap x).forwards = (w.heap x).forwards := by
  simp only [updFall_heap]
  split
  · next h => subst h; rfl
  · rfl

@[simp] theorem postFire_trace (b : Nat) (w1 : World) :
    (postFire b w1).trace = w1.trace := by
  show (updFall b .done (retractAll _ b _)).trace = w1.trace
  rw [updFall_trace, retractAll_trace, updHeap_trace]

theorem postFire_fallOnce_self (b : Nat) (w1 : World) :
    ((postFire b w1).heap b).fallOnce = OnceStatus.done := by
  show ((updFall b .done (retractAll _ b _)).heap b).fallOnce = OnceStatus.done
  simp

theorem postFire_initOnce (b : Nat) (w1 : World) (x : Nat) :
    ((postFire b w1).heap x).initOnce = (w1.heap x).initOnce := by
  show ((updFall b .done (retractAll
      ((updHeap b { w1.heap b with forwards := [] } w1).heap b).backwards b
      (updHeap b { w1.heap b with forwards := [] } w1))).heap x).initOnce = _
  simp only [updFall_heap]
  split
  · next hxb =>
    rw [hxb]
    show ((retractAll ((updHeap b { w1.heap b with forwards := [] } w1).heap b).backwards b
        (updHeap b { w1.heap b with forwards := [] } w1)).heap b).initOnce = (w1.heap b).initOnce
    rw [retractAll_initOnce]
    simp
  · next hxb =>
    rw [retractAll_initOnce]
    simp [hxb]

theorem postFire_forwards_self (b : Nat) (w1 : World) :
    ((postFire b w1).heap b).forwards = [] := by
  rw [List.eq_nil_iff_forall_not_mem]
  intro y hy
  rw [show ((postFire b w1).heap b).forwards
      = ((updFall b .done (retractAll
          ((updHeap b { w1.heap b with forwards := [] } w1).heap b).backwards b
          (updHeap b { w1.heap b with forwards := [] } w1))).heap b).forwards from rfl,
    updFall_forwards] at hy
  have hsub := retractAll_forwards_sub
    ((updHeap b { w1.heap b with forwards := [] } w1).heap b).backwards b
    (updHeap b { w1.heap b with forwards := [] } w1) b y hy
  simp at hsub

theorem postFire_backwards_self (b : Nat) (w1 : World) :
    ((postFire b w1).heap b).backwards = (w1.heap b).backwards := by
  show ((updFall b .done (retractAll
      ((updHeap b { w1.heap b with forwards := [] } w1).heap b).backwards b
      (updHeap b { w1.heap b with forwards := [] } w1))).heap b).backwards = _
  simp only [updFall_heap, if_pos rfl]
  show ((retractAll ((updHeap b { w1.heap b with forwards := [] } w1).heap b).backwards b
      (updHeap b { w1.heap b with forwards := [] } w1)).heap b).backwards = _
  rw [retractAll_backwards]
  simp

theorem postFire_retracted (b : Nat) (w1 : World) :
    ∀ p ∈ ((postFire b w1).heap b).backwards, b ∉ ((postFire b w1).heap p).forwards := by
  intro p hp hmem
  rw [postFire_backwards_self] at hp
  rw [show ((postFire b w1).heap p).forwards
      = ((updFall b .done (retractAll
          ((updHeap b { w1.heap b with forwards := [] } w1).heap b).backwards b
          (updHeap b { w1.heap b with forwards := [] } w1))).heap p).forwards from rfl,
    updFall_forwards] at hmem
  have hp' : p ∈ ((updHeap b { w1.heap b with forwards := [] } w1).heap b).backwards := by
    simp only [updHeap_heap, if_pos rfl]
    exact hp
  exact retractAll_mem_retracted _ b _ p hp' hmem

theorem Fall_first_trace (fuel b : Nat) (w w' : World)
    (hns : (w.heap b).fallOnce = OnceStatus.notStarted)
    (hhook : (w.heap b).fallHook = true)
    (h : Fall (fuel + 1) b w = .ok w') :
    ∃ t, w'.trace = w.trace ++ Event.hookEv b :: Event.closeEv b :: t ∧
      Event.hookEv b ∉ t ∧ Event.closeEv b ∉ t ∧
      (w'.heap b).fallOnce = OnceStatus.done ∧ (w'.heap b).initOnce = true := by
  obtain ⟨w1, hfs, rfl⟩ := Fall_ns_shape fuel b w w' hns h
  have hpf : (preFire b (Init b w)).trace = w.trace ++ [Event.hookEv b, Event.closeEv b] := by
    rw [preFire_trace, init_trace, init_fallHook, hhook]
    simp
  have hstep := fallSeq_step _ (fun f wx wy hxy => Fall_step fuel f wx wy hxy) _ _ _ hfs
  obtain ⟨t, ht, hp⟩ := hstep.traceExt
  have hrun : ((preFire b (Init b w)).heap b).fallOnce = OnceStatus.running := by
    rw [preFire_heap]
    simp
  have hnb := hp b (by rw [hrun]; simp)
  have hIOpre : ((preFire b (Init b w)).heap b).initOnce = true := by
    rw [preFire_heap]
    simp [init_initOnce_self]
  refine ⟨t, ?_, hnb.1, hnb.2, postFire_fallOnce_self b w1, ?_⟩
  · rw [postFire_trace, ht, hpf]
    simp
  · rw [postFire_initOnce]
    exact (hstep.chanStable b hIOpre).1

theorem Fall_done_noop (fuel b : Nat) (w : World)
    (hinit : (w.heap b).initOnce = true) (hdone : (w.heap b).fallOnce = OnceStatus.done) :
    Fall (fuel + 1) b w = .ok w := by
  simp only [Fall]
  rw [init_of_initOnce b w hinit, hdone]

theorem FallN_of_done (fuel : Nat) : ∀ (N b : Nat) (w : World),
    (w.heap b).initOnce = true → (w.heap b).fallOnce = OnceStatus.done →
    FallN (fuel + 1) N b w = .ok w
  | 0, _, _, _, _ => rfl
  | N + 1, b, w, hi, hd => by
    simp only [FallN]
    rw [Fall_done_noop fuel b w hi hd]
    exact FallN_of_done fuel N b w hi hd


/-! ## Claim theorems over arbitrary states, and their witnesses -/

/-- C3: idempotence of firing.  For any barrier `b` whose gate is untouched,
whose hook is set and whose hook/close events have not yet occurred, if the
first `b.Fall()` succeeds then calling `Fall` any `N ≥ 1` times yields
exactly the state of the single first call, with the hook invoked exactly
once and the channel closed (the handle made ready) exactly once; every call
after the first is a no-op returning the unchanged world. -/
theorem C3_thm (fuel N b : Nat) (w w1 : World)
    (hN : 1 ≤ N)
    (hns : (w.heap b).fallOnce = OnceStatus.notStarted)
    (hhook : (w.heap b).fallHook = true)
    (hcntH : w.trace.count (Event.hookEv b) = 0)
    (hcntC : w.trace.count (Event.closeEv b) = 0)
    (h : Fall (fuel + 1) b w = .ok w1) :
    FallN (fuel + 1) N b w = .ok w1 ∧
      w1.trace.count (Event.hookEv b) = 1 ∧ w1.trace.count (Event.closeEv b) = 1 := by
  obtain ⟨t, ht, hnh, hnc, hdone, hinit⟩ := Fall_first_trace fuel b w w1 hns hhook h
  refine ⟨?_, ?_, ?_⟩
  · obtain ⟨M, rfl⟩ : ∃ M, N = M + 1 := ⟨N - 1, by omega⟩
    simp only [FallN]
    rw [h]
    exact FallN_of_done fuel M b w1 hinit hdone
  · rw [ht, List.count_append, hcntH]
    simp [List.count_cons, List.count_eq_zero.2 hnh]
  · rw [ht, List.count_append, hcntC]
    simp [List.count_cons, List.count_eq_zero.2 hnc]

theorem C3_witness :
    (w0.heap 0).fallOnce = OnceStatus.notStarted ∧
      (FallN 10 2 0 w0 = .ok (okWorld (Fall 10 0 w0) w0) ∧
        (okWorld (Fall 10 0 w0) w0).trace.count (Event.hookEv 0) = 1 ∧
        (okWorld (Fall 10 0 w0) w0).trace.count (Event.closeEv 0) = 1) :=
  ⟨rfl, C3_thm 9 2 0 w0 (okWorld (Fall 10 0 w0) w0) (by decide) rfl rfl rfl rfl rfl⟩

/-- The world after `a.Forward(b)` on fresh barriers `0`, `1`: used to
witness the claims about firing a barrier that has a forward edge. -/
def wChain : World := okWorld (runOps 10 [Op.opForward 0 1] w0) w0

/-- C6: hook ordering.  On the first `Fall()` of a barrier with a hook set,
the trace gains the hook event first, then the close event, then everything
caused by propagation — so the hook runs synchronously before the channel
becomes ready and before any propagation — and neither event for `b` recurs,
in this call or in any later sequence of API calls (exactly once ever). -/
theorem C6_thm (fuel b : Nat) (w w' : World)
    (hns : (w.heap b).fallOnce = OnceStatus.notStarted)
    (hhook : (w.heap b).fallHook = true)
    (h : Fall (fuel + 1) b w = .ok w') :
    ∃ t, w'.trace = w.trace ++ Event.hookEv b :: Event.closeEv b :: t ∧
      Event.hookEv b ∉ t ∧ Event.closeEv b ∉ t ∧
      ∀ fuel2 ops w2, runOps fuel2 ops w' = .ok w2 →
        ∃ t2, w2.trace = w'.trace ++ t2 ∧ Event.hookEv b ∉ t2 ∧ Event.closeEv b ∉ t2 := by
  obtain ⟨t, ht, hnh, hnc, hdone, _⟩ := Fall_first_trace fuel b w w' hns hhook h
  refine ⟨t, ht, hnh, hnc, fun fuel2 ops w2 h2 => ?_⟩
  obtain ⟨t2, ht2, hp2⟩ := (runOps_step fuel2 ops w' w2 h2).traceExt
  have hn2 := hp2 b (by rw [hdone]; simp)
  exact ⟨t2, ht2, hn2.1, hn2.2⟩

theorem C6_witness :
    ∃ t, (okWorld (Fall 10 0 wChain) w0).trace =
        wChain.trace ++ Event.hookEv 0 :: Event.closeEv 0 :: t ∧
      Event.hookEv 0 ∉ t ∧ Event.closeEv 0 ∉ t ∧
      ∀ fuel2 ops w2, runOps fuel2 ops (okWorld (Fall 10 0 wChain) w0) = .ok w2 →
        ∃ t2, w2.trace = (okWorld (Fall 10 0 wChain) w0).trace ++ t2 ∧
          Event.hookEv 0 ∉ t2 ∧ Event.closeEv 0 ∉ t2 :=
  C6_thm 9 0 wChain (okWorld (Fall 10 0 wChain) w0) rfl rfl rfl

/-- C4 (amended): `forwards` is emptied as part of firing — after a
successful first `b.Fall()` the set `b.forwards` is empty (`b.forwards = nil`
runs after propagation).  The counterexample shows that, contrary to the
original claim, `b.backwards` is not cleared by `b`'s own fall. -/
theorem C4_amended_thm (fuel b : Nat) (w w' : World)
    (hns : (w.heap b).fallOnce = OnceStatus.notStarted)
    (h : Fall (fuel + 1) b w = .ok w') :
    (w'.heap b).forwards = [] := by
  obtain ⟨w1, _, rfl⟩ := Fall_ns_shape fuel b w w' hns h
  exact postFire_forwards_self b w1

theorem C4_amended_witness :
    ((okWorld (Fall 10 1 wChain) w0).heap 1).forwards = [] :=
  C4_amended_thm 9 1 wChain (okWorld (Fall 10 1 wChain) w0) rfl rfl

/-- C5 (amended): after a successful first `a.Fall()`, `a`'s forward set is
empty and every barrier `p` recorded in `a.backwards` (the barriers that had
forwarded into `a`) no longer lists `a` in `p.forwards` — the retraction
runs in the direction of predecessors.  The counterexample shows that,
contrary to the original claim, barriers `a` forwarded into still list `a`
in their own backward sets. -/
theorem C5_amended_thm (fuel b : Nat) (w w' : World)
    (hns : (w.heap b).fallOnce = OnceStatus.notStarted)
    (h : Fall (fuel + 1) b w = .ok w') :
    (w'.heap b).forwards = [] ∧
      ∀ p ∈ (w'.heap b).backwards, b ∉ (w'.heap p).forwards := by
  obtain ⟨w1, _, rfl⟩ := Fall_ns_shape fuel b w w' hns h
  exact ⟨postFire_forwards_self b w1, postFire_retracted b w1⟩

theorem C5_amended_witness :
    ((okWorld (Fall 10 0 wChain) w0).heap 0).forwards = [] ∧
      ∀ p ∈ ((okWorld (Fall 10 0 wChain) w0).heap 0).backwards,
        0 ∉ ((okWorld (Fall 10 0 wChain) w0).heap p).forwards :=
  C5_amended_thm 9 0 wChain (okWorld (Fall 10 0 wChain) w0) rfl rfl

/-- C8: state-machine permanence.  Over any sequence of API calls, every
barrier's fire-once status only advances (the fired flag is monotonic), a
Fallen barrier stays Fallen, closed channels stay closed (the observation
handle stays ready forever), and no hook or close event for a barrier whose
gate has been entered ever recurs — the only transition is Pending→Fallen
and it is never undone. -/
theorem C8_thm (fuel : Nat) (ops : List Op) (w w' : World) (b : Nat)
    (h : runOps fuel ops w = .ok w') :
    stN (w.heap b).fallOnce ≤ stN (w'.heap b).fallOnce ∧
      ((w.heap b).fallOnce = OnceStatus.done → (w'.heap b).fallOnce = OnceStatus.done) ∧
      (∀ c, w.chanClosed c = true → w'.chanClosed c = true) ∧
      ∃ t, w'.trace = w.trace ++ t ∧
        ((w.heap b).fallOnce ≠ OnceStatus.notStarted →
          Event.hookEv b ∉ t ∧ Event.closeEv b ∉ t) := by
  have hs := runOps_step fuel ops w w' h
  refine ⟨hs.fallMono b, fun hd => ?_, hs.closedMono, ?_⟩
  · have hm := hs.fallMono b
    rw [hd] at hm
    cases hE : (w'.heap b).fallOnce
    · rw [hE] at hm
      simp [stN] at hm
    · rw [hE] at hm
      simp [stN] at hm
    · rfl
  · obtain ⟨t, ht, hp⟩ := hs.traceExt
    exact ⟨t, ht, fun hne => hp b hne⟩

theorem C8_witness :
    stN ((wChain.heap 0).fallOnce) ≤
        stN (((okWorld (runOps 10 [Op.opFall 0] wChain) w0).heap 0).fallOnce) ∧
      ((wChain.heap 0).fallOnce = OnceStatus.done →
        ((okWorld (runOps 10 [Op.opFall 0] wChain) w0).heap 0).fallOnce = OnceStatus.done) ∧
      (∀ c, wChain.chanClosed c = true →
        (okWorld (runOps 10 [Op.opFall 0] wChain) w0).chanClosed c = true) ∧
      ∃ t, (okWorld (runOps 10 [Op.opFall 0] wChain) w0).trace = wChain.trace ++ t ∧
        ((wChain.heap 0).fallOnce ≠ OnceStatus.notStarted →
          Event.hookEv 0 ∉ t ∧ Event.closeEv 0 ∉ t) :=
  C8_thm 10 [Op.opFall 0] wChain (okWorld (runOps 10 [Op.opFall 0] wChain) w0) 0 rfl

/-- C10: observation-handle identity.  `b.Barrier()` always returns the same
channel: a second call returns the identical channel and leaves the world
unchanged; on an already-initialized barrier the call changes nothing at
all; on an uninitialized barrier it performs exactly the one-time
initialization (allocating the next fresh channel id); and after any further
sequence of API calls, `b.Barrier()` still returns the same channel. -/
theorem C10_thm (w : World) (b : Nat) :
    (BarrierCh b (BarrierCh b w).2).1 = (BarrierCh b w).1 ∧
      (BarrierCh b (BarrierCh b w).2).2 = (BarrierCh b w).2 ∧
      ((w.heap b).initOnce = true → (BarrierCh b w).2 = w) ∧
      ((w.heap b).initOnce = false →
        (BarrierCh b w).1 = some w.nextChan ∧ (BarrierCh b w).2.nextChan = w.nextChan + 1) ∧
      ∀ fuel ops w2, runOps fuel ops (BarrierCh b w).2 = .ok w2 →
        (BarrierCh b w2).1 = (BarrierCh b w).1 := by
  have hio : ((Init b w).heap b).initOnce = true := init_initOnce_self b w
  have hid : Init b (Init b w) = Init b w := init_of_initOnce b _ hio
  refine ⟨?_, ?_, ?_, ?_, ?_⟩
  · show ((Init b (Init b w)).heap b).channel = ((Init b w).heap b).channel
    rw [hid]
  · show Init b (Init b w) = Init b w
    exact hid
  · intro h
    show Init b w = w
    exact init_of_initOnce b w h
  · intro h
    constructor
    · show ((Init b w).heap b).channel = some w.nextChan
      rw [Init]
      simp [h]
    · show (Init b w).nextChan = w.nextChan + 1
      rw [Init]
      simp [h]
  · intro fuel ops w2 h2
    have hs := runOps_step fuel ops (Init b w) w2 h2
    obtain ⟨hi2, hc2⟩ := hs.chanStable b hio
    show ((Init b w2).heap b).channel = ((Init b w).heap b).channel
    rw [init_of_initOnce b w2 hi2]
    exact hc2

theorem C10_witness :
    (BarrierCh 0 (okWorld (runOps 10 [Op.opFall 0] (BarrierCh 0 w0).2) w0)).1 =
      (BarrierCh 0 w0).1 :=
  (C10_thm w0 0).2.2.2.2 10 [Op.opFall 0]
    (okWorld (runOps 10 [Op.opFall 0] (BarrierCh 0 w0).2) w0) rfl


/-! ## C9: `Forward` racing `Fall`, modelled by explicit interleavings

The shared state touched by `Forward(b, f)` and `Fall()` on the same `b` is
guarded by `b.m` and the two `sync.Once` gates.  Each thread is therefore a
program-ordered list of atomic actions, one per lock-protected critical
section of the Go code; a concurrent execution is any interleaving of the
two lists.  `Forward` is the actions: `b.init()`; the `b.m`-locked closure
(fast path or edge insertion); `f.init()`; the `f.m`-locked back-edge
insertion.  `Fall` is: `b.init()`; the gate entry with the `b.m`-locked
hook+close; the propagation loop; the cleanup suffix. -/

inductive Act
  | aInit (b : Nat)
  | aFwdCrit (b f : Nat)
  | aAddBack (b f : Nat)
  | aOnceEnter (b : Nat)
  | aPropagate (b : Nat)
  | aFinish (b : Nat)

/-- Execute one atomic action (nested complete `Fall` calls on third
barriers run with fuel 10). -/
def applyAct (w : World) : Act → Except Err World
  | .aInit b => .ok (Init b w)
  | .aFwdCrit b f =>
    if isClosed w b then Fall 10 f w
    else .ok (updHeap b { w.heap b with forwards := insertId f (w.heap b).forwards } w)
  | .aAddBack b f =>
    .ok (updHeap f { w.heap f with backwards := insertId b (w.heap f).backwards } w)
  | .aOnceEnter b =>
    match (w.heap b).fallOnce with
    | .notStarted => .ok (preFire b w)
    | _ => .ok w
  | .aPropagate b =>
    if (w.heap b).fallOnce = OnceStatus.running then
      fallSeq (fun f wx => Fall 10 f wx) (w.heap b).forwards w
    else .ok w
  | .aFinish b =>
    if (w.heap b).fallOnce = OnceStatus.running then .ok (postFire b w)
    else .ok w

def runActs : List Act → World → Except Err World
  | [], w => .ok w
  | a :: rest, w =>
    match applyAct w a with
    | .error e => .error e
    | .ok w' => runActs rest w'

/-- The atomic actions of `b.Forward(f)`, in program order. -/
def fwdActs (b f : Nat) : List Act := [.aInit b, .aFwdCrit b f, .aInit f, .aAddBack b f]

/-- The atomic actions of `b.Fall()`, in program order. -/
def fallActs (b : Nat) : List Act := [.aInit b, .aOnceEnter b, .aPropagate b, .aFinish b]

/-- All interleavings of two action lists (fuel-bounded recursion; any fuel
of at least the total length is exact). -/
def ileave (fuel : Nat) : List Act → List Act → List (List Act) :=
  match fuel with
  | 0 => fun _ _ => []
  | fuel + 1 => fun xs ys =>
    match xs, ys with
    | [], ys => [ys]
    | x :: xs, [] => [x :: xs]
    | x :: xs, y :: ys =>
      (ileave fuel xs (y :: ys)).map (fun l => x :: l) ++
        (ileave fuel (x :: xs) ys).map (fun l => y :: l)

/-- The observables of the two-barrier race world: both barriers' gate
status, closedness, edge sets, channels, the allocator and the full trace. -/
structure Obs where
  st0 : OnceStatus
  st1 : OnceStatus
  cl0 : Bool
  cl1 : Bool
  fw0 : List Nat
  fw1 : List Nat
  bw0 : List Nat
  bw1 : List Nat
  ch0 : Option Nat
  ch1 : Option Nat
  nxt : Nat
  tr : List Event
deriving DecidableEq, Repr

def obsW (w : World) : Obs :=
  { st0 := (w.heap 0).fallOnce, st1 := (w.heap 1).fallOnce,
    cl0 := isClosed w 0, cl1 := isClosed w 1,
    fw0 := (w.heap 0).forwards, fw1 := (w.heap 1).forwards,
    bw0 := (w.heap 0).backwards, bw1 := (w.heap 1).backwards,
    ch0 := (w.heap 0).channel, ch1 := (w.heap 1).channel,
    nxt := w.nextChan, tr := w.trace }

/-- Observables of running an action list from the fresh two-barrier world
(`none` when the run errors). -/
def obsRun (l : List Act) : Option Obs :=
  match runActs l w0 with
  | .ok w => some (obsW w)
  | .error _ => none

/-- C9: race atomicity of `Forward` vs `Fall`.  Every interleaving of the
atomic actions of `b.Forward(f)` with those of a concurrent `b.Fall()`
(fresh `b = 0`, `f = 1`) produces exactly the observables of the serialized
execution — which are moreover identical for both serialization orders — and
in that outcome `f` is Fallen (gate done, channel closed) with each hook
having run exactly once: there is no window where `Fall` misses `f` and `f`
is never fired. -/
theorem C9_thm :
    ((ileave 12 (fwdActs 0 1) (fallActs 0)).all
        (fun il => decide (obsRun il = obsRun (fwdActs 0 1 ++ fallActs 0)))) = true ∧
      obsRun (fwdActs 0 1 ++ fallActs 0) = obsRun (fallActs 0 ++ fwdActs 0 1) ∧
      obsRun (fwdActs 0 1 ++ fallActs 0) =
        some { st0 := .done, st1 := .done, cl0 := true, cl1 := true,
               fw0 := [], fw1 := [], bw0 := [], bw1 := [0],
               ch0 := some 0, ch1 := some 1, nxt := 2,
               tr := [Event.hookEv 0, Event.closeEv 0, Event.hookEv 1, Event.closeEv 1] } :=
  ⟨rfl, rfl, rfl⟩

end Barrier
